import Mathlib

/-!
Verification of the `debounce` call-rate limiter (`src/utils/debounce.ts`)
and of the string katas `firstDupElem` / `uniqChars` (utility module).

The debounce source is:

  export const debounce = (func, delay) => {
      let timerId = null;
      return (...args) => {
          if (timerId) { clearTimeout(timerId); }
          timerId = setTimeout(() => { func(...args); timerId = null; }, delay);
      };
  };

We embed the wrapper together with the host scheduler: a state holds the
set of active (scheduled, not yet fired, not cancelled) timers of the host,
the closure variable `timerId`, a fresh-id counter for `setTimeout`, and the
chronological log of firings of the wrapped action (fire time, arguments).
Times and the delay are integers (milliseconds); the wrapped action is
opaque, so a firing is recorded as the pair (fire time, captured args).
-/

set_option maxHeartbeats 1000000

namespace DebounceModel

/-- State of one limiter instance together with the host scheduler.
`active` lists the scheduled-but-not-yet-fired timers as
(timer id, fire time, captured arguments). `timerId` is the closure
variable of the source (`null` = `none`). `fired` is the log of
invocations of the wrapped action, as (fire time, arguments). -/
structure DState (α : Type) where
  active : List (Nat × Int × α)
  nextId : Nat
  timerId : Option Nat
  fired : List (Int × α)
deriving DecidableEq

/-- The host event loop delivering elapsed timers: every active timer whose
fire time is ≤ `t` fires (its callback runs `func(...args); timerId = null`,
which appends to the log and nulls the closure variable); timers still in
the future stay active. -/
def fireDue {α : Type} (s : DState α) (t : Int) : DState α :=
  let due := s.active.filter (fun x => decide (x.2.1 ≤ t))
  { active := s.active.filter (fun x => decide (t < x.2.1))
    nextId := s.nextId
    timerId := if due.isEmpty then s.timerId else none
    fired := s.fired ++ due.map (fun x => (x.2.1, x.2.2)) }

/-- The body of the wrapper closure, run when the caller invokes it at time
`t` with arguments `a`: `if (timerId) clearTimeout(timerId)` removes the
timer named by the closure variable from the host, then
`timerId = setTimeout(..., delay)` registers a fresh timer at `t + delay`
capturing `a`. The second component is the wrapper's return value. -/
def wrapperBody {α : Type} (delay : Int) (s : DState α) (t : Int) (a : α) :
    DState α × Unit :=
  let s1 := match s.timerId with
    | some id => { s with active := s.active.filter (fun x => decide (x.1 ≠ id)) }
    | none => s
  ({ active := s1.active ++ [(s1.nextId, t + delay, a)]
     nextId := s1.nextId + 1
     timerId := some s1.nextId
     fired := s1.fired }, ())

/-- One invocation of the wrapper at time `t` with arguments `a`: the host
first delivers every timer already due at `t`, then the wrapper body runs. -/
def callStep {α : Type} (delay : Int) (s : DState α) (t : Int) (a : α) : DState α :=
  (wrapperBody delay (fireDue s t) t a).1

/-- State right after `debounce(func, delay)` is constructed: no timer,
`timerId` uninitialized (falsy), nothing fired. -/
def initState {α : Type} : DState α := ⟨[], 0, none, []⟩

/-- Run a schedule of wrapper invocations (time, arguments) from a state. -/
def runFrom {α : Type} (delay : Int) (s : DState α) (calls : List (Int × α)) : DState α :=
  calls.foldl (fun s c => callStep delay s c.1 c.2) s

/-- Run a schedule of wrapper invocations from the freshly constructed state. -/
def runCalls {α : Type} (delay : Int) (calls : List (Int × α)) : DState α :=
  runFrom delay initState calls

/-- All firings of the wrapped action once the schedule ends and the system
goes quiet: the log so far, followed by the still-pending timer (if any),
which fires at its scheduled time since nothing cancels it. -/
def allFires {α : Type} (delay : Int) (calls : List (Int × α)) : List (Int × α) :=
  (runCalls delay calls).fired ++
    (runCalls delay calls).active.map (fun x => (x.2.1, x.2.2))

/-- Structural invariant of a limiter instance: at most one active timer,
and the closure variable names every active timer. -/
def Inv {α : Type} (s : DState α) : Prop :=
  s.active.length ≤ 1 ∧ ∀ x ∈ s.active, s.timerId = some x.1

instance {α : Type} [DecidableEq α] (s : DState α) : Decidable (Inv s) := by
  unfold Inv; infer_instance

lemma getLast?_append_singleton {β : Type} (l : List β) (x : β) :
    (l ++ [x]).getLast? = some x := by
  rw [List.getLast?_concat]

/-- If no active timer is due at `t`, the event loop delivers nothing. -/
lemma fireDue_of_not_due {α : Type} (s : DState α) (t : Int)
    (h : ∀ x ∈ s.active, t < x.2.1) : fireDue s t = s := by
  have hdue : s.active.filter (fun x => decide (x.2.1 ≤ t)) = [] :=
    List.filter_eq_nil_iff.mpr (fun x hx => by simpa using not_le.mpr (h x hx))
  have hkeep : s.active.filter (fun x => decide (t < x.2.1)) = s.active :=
    List.filter_eq_self.mpr (fun x hx => by simpa using h x hx)
  simp [fireDue, hdue, hkeep]

/-- A single active timer due at `t` fires: the log gets (fire time, args),
the active set empties, and the callback nulls `timerId`. -/
lemma fireDue_single_due {α : Type} (s : DState α) (id : Nat) (ft : Int) (b : α)
    (t : Int) (hact : s.active = [(id, ft, b)]) (hle : ft ≤ t) :
    fireDue s t = ⟨[], s.nextId, none, s.fired ++ [(ft, b)]⟩ := by
  simp [fireDue, hact, hle, not_lt.mpr hle]

lemma wrapperBody_eq_of_single {α : Type} (delay : Int) (s : DState α)
    (id : Nat) (ft : Int) (b : α) (t : Int) (a : α)
    (hact : s.active = [(id, ft, b)]) (htid : s.timerId = some id) :
    (wrapperBody delay s t a).1 =
      ⟨[(s.nextId, t + delay, a)], s.nextId + 1, some s.nextId, s.fired⟩ := by
  simp [wrapperBody, htid, hact]

/-- A wrapper call while a single timer is pending and not yet due:
the pending timer is cancelled and a fresh one is scheduled at `t + delay`
with the new arguments; nothing fires. -/
lemma callStep_not_due {α : Type} (delay : Int) (s : DState α)
    (id : Nat) (ft : Int) (b : α) (t : Int) (a : α)
    (hact : s.active = [(id, ft, b)]) (htid : s.timerId = some id) (hlt : t < ft) :
    callStep delay s t a =
      ⟨[(s.nextId, t + delay, a)], s.nextId + 1, some s.nextId, s.fired⟩ := by
  have h1 : fireDue s t = s := by
    refine fireDue_of_not_due s t ?_
    intro x hx
    rw [hact] at hx
    rcases List.mem_singleton.mp hx with rfl
    exact hlt
  unfold callStep
  rw [h1, wrapperBody_eq_of_single delay s id ft b t a hact htid]

/-- A wrapper call with no active timer schedules a fresh timer at
`t + delay`; nothing fires, whatever the stale value of `timerId`. -/
lemma callStep_of_empty {α : Type} (delay : Int) (s : DState α) (t : Int) (a : α)
    (hact : s.active = []) :
    callStep delay s t a =
      ⟨[(s.nextId, t + delay, a)], s.nextId + 1, some s.nextId, s.fired⟩ := by
  have h1 : fireDue s t = s := fireDue_of_not_due s t (by rw [hact]; simp)
  unfold callStep
  rw [h1]
  cases h : s.timerId <;> simp [wrapperBody, h, hact]

/-- A wrapper call after the single pending timer has come due: the timer
fires first (logging its captured arguments), then a fresh timer is
scheduled at `t + delay`. -/
lemma callStep_due {α : Type} (delay : Int) (s : DState α)
    (id : Nat) (ft : Int) (b : α) (t : Int) (a : α)
    (hact : s.active = [(id, ft, b)]) (hle : ft ≤ t) :
    callStep delay s t a =
      ⟨[(s.nextId, t + delay, a)], s.nextId + 1, some s.nextId,
        s.fired ++ [(ft, b)]⟩ := by
  unfold callStep
  rw [fireDue_single_due s id ft b t hact hle]
  simp [wrapperBody]

lemma active_cases {α : Type} (s : DState α) (h : s.active.length ≤ 1) :
    s.active = [] ∨ ∃ y, s.active = [y] := by
  cases hs : s.active with
  | nil => exact Or.inl rfl
  | cons y ys =>
    cases ys with
    | nil => exact Or.inr ⟨y, rfl⟩
    | cons z zs => rw [hs] at h; simp at h

lemma wrapperBody_active {α : Type} (delay : Int) (s : DState α) (t : Int) (a : α) :
    (wrapperBody delay s t a).1.active =
      (match s.timerId with
        | some id => s.active.filter (fun x => decide (x.1 ≠ id))
        | none => s.active) ++ [(s.nextId, t + delay, a)] := by
  cases h : s.timerId <;> simp [wrapperBody, h]

lemma mem_wrapperBody_active {α : Type} (delay : Int) (s : DState α) (t : Int) (a : α) :
    ∀ x ∈ (wrapperBody delay s t a).1.active,
      x ∈ s.active ∨ x = (s.nextId, t + delay, a) := by
  intro x hx
  rw [wrapperBody_active] at hx
  rcases List.mem_append.mp hx with h | h
  · left
    cases htid : s.timerId <;> rw [htid] at h
    · exact h
    · exact List.mem_of_mem_filter h
  · exact Or.inr (List.mem_singleton.mp h)

lemma mem_fireDue_active {α : Type} (s : DState α) (t : Int) :
    ∀ x ∈ (fireDue s t).active, x ∈ s.active := by
  intro x hx
  exact List.mem_of_mem_filter hx

/-- C3: every wrapper call cancels the pending timer if one exists (the
previously scheduled invocation never fires: the log is untouched and the
old timer leaves the active set for good) and schedules a new timer at
exactly `t + delay` capturing the current call's arguments — whether or
not a timer was pending. -/
theorem callStep_cancels_and_reschedules {α : Type} (delay : Int) (s : DState α)
    (t : Int) (a : α) (hinv : Inv s) (hpend : ∀ x ∈ s.active, t < x.2.1) :
    callStep delay s t a =
      ⟨[(s.nextId, t + delay, a)], s.nextId + 1, some s.nextId, s.fired⟩ := by
  rcases active_cases s hinv.1 with hact | ⟨⟨id, ft, b⟩, hact⟩
  · exact callStep_of_empty delay s t a hact
  · have htid : s.timerId = some id := hinv.2 (id, ft, b) (by rw [hact]; simp)
    have hlt : t < ft := hpend (id, ft, b) (by rw [hact]; simp)
    exact callStep_not_due delay s id ft b t a hact htid hlt

/-- C3 witness: with a timer pending at fire time 10, a call at time 3
with delay 5 cancels it and schedules (8, new args) without firing. -/
theorem callStep_cancels_and_reschedules_witness :
    Inv (⟨[(0, 10, 'x')], 1, some 0, []⟩ : DState Char) ∧
    callStep 5 (⟨[(0, 10, 'x')], 1, some 0, []⟩ : DState Char) 3 'y' =
      ⟨[(1, 8, 'y')], 2, some 1, []⟩ :=
  ⟨by decide,
   callStep_cancels_and_reschedules 5 ⟨[(0, 10, 'x')], 1, some 0, []⟩ 3 'y'
     (by decide) (by decide)⟩

/-- C4: a timer that elapses without being cancelled invokes the wrapped
action with its captured arguments and clears the pending-timer slot
(active set empty, `timerId` null); a subsequent wrapper call therefore
starts a fresh burst, scheduling a new timer rather than cancelling a
completed one. -/
theorem timer_fires_then_clears_slot {α : Type} (delay : Int) (s : DState α)
    (id : Nat) (ft : Int) (b : α) (t : Int) (a : α)
    (hact : s.active = [(id, ft, b)]) (hdue : ft ≤ t) :
    fireDue s t = ⟨[], s.nextId, none, s.fired ++ [(ft, b)]⟩ ∧
    callStep delay s t a =
      ⟨[(s.nextId, t + delay, a)], s.nextId + 1, some s.nextId,
        s.fired ++ [(ft, b)]⟩ :=
  ⟨fireDue_single_due s id ft b t hact hdue,
   callStep_due delay s id ft b t a hact hdue⟩

/-- C4 witness: a timer set for time 10 with argument x fires when time 15
arrives, logging (10, x) and clearing the slot; the call at 15 then
schedules a fresh timer at 20. -/
theorem timer_fires_then_clears_slot_witness :
    fireDue (⟨[(0, 10, 'x')], 1, some 0, []⟩ : DState Char) 15 =
      ⟨[], 1, none, [(10, 'x')]⟩ ∧
    callStep 5 (⟨[(0, 10, 'x')], 1, some 0, []⟩ : DState Char) 15 'y' =
      ⟨[(1, 20, 'y')], 2, some 1, [(10, 'x')]⟩ :=
  timer_fires_then_clears_slot 5 ⟨[(0, 10, 'x')], 1, some 0, []⟩ 0 10 'x' 15 'y'
    rfl (by decide)

/-- C6: the wrapper body returns immediately with no value (unit), and it
never invokes the wrapped action synchronously: the firing log is exactly
what it was before the call. -/
theorem wrapper_returns_unit_without_firing {α : Type} (delay : Int)
    (s : DState α) (t : Int) (a : α) :
    (wrapperBody delay s t a).2 = () ∧
    (wrapperBody delay s t a).1.fired = s.fired := by
  refine ⟨rfl, ?_⟩
  cases h : s.timerId <;> simp [wrapperBody, h]

/-- C6 witness: a concrete wrapper call returns unit and fires nothing. -/
theorem wrapper_returns_unit_without_firing_witness :
    (wrapperBody 100 (initState : DState Char) 0 'a').2 = () ∧
    (wrapperBody 100 (initState : DState Char) 0 'a').1.fired =
      (initState : DState Char).fired :=
  wrapper_returns_unit_without_firing 100 initState 0 'a'

/-- C8: no validation or clamping of the delay: for every `delay : Int`,
negative included, a wrapper call schedules its timer at exactly
`t + delay`, and every timer in the active set afterwards is either one
that was already scheduled or the fresh one — so every timer ever
scheduled uses the construction-time delay unchanged. -/
theorem schedule_uses_exact_delay {α : Type} (delay : Int) (s : DState α)
    (t : Int) (a : α) :
    (callStep delay s t a).active.getLast? = some (s.nextId, t + delay, a) ∧
    ∀ x ∈ (callStep delay s t a).active,
      x ∈ s.active ∨ x = (s.nextId, t + delay, a) := by
  constructor
  · show (wrapperBody delay (fireDue s t) t a).1.active.getLast? = _
    rw [wrapperBody_active]
    exact getLast?_append_singleton _ _
  · intro x hx
    rcases mem_wrapperBody_active delay (fireDue s t) t a x hx with h | h
    · exact Or.inl (mem_fireDue_active s t x h)
    · exact Or.inr h

/-- C8 witness: with a negative delay of -100, the call at time 0 schedules
a timer at exactly -100, unclamped. -/
theorem schedule_uses_exact_delay_witness :
    (callStep (-100) (initState : DState Char) 0 'z').active.getLast? =
      some (0, -100, 'z') :=
  (schedule_uses_exact_delay (-100) initState 0 'z').1

lemma eq_singleton_of_mem {β : Type} (l : List β) (y : β)
    (hlen : l.length ≤ 1) (hy : y ∈ l) : l = [y] := by
  cases l with
  | nil => cases hy
  | cons z zs =>
    cases zs with
    | nil => rw [List.mem_singleton.mp hy]
    | cons w ws => simp at hlen

lemma inv_fireDue {α : Type} (s : DState α) (t : Int) (h : Inv s) :
    Inv (fireDue s t) := by
  by_cases hdue : ∀ x ∈ s.active, t < x.2.1
  · rw [fireDue_of_not_due s t hdue]
    exact h
  · push_neg at hdue
    obtain ⟨y, hy, hyt⟩ := hdue
    have hact : s.active = [(y.1, y.2.1, y.2.2)] := eq_singleton_of_mem _ _ h.1 hy
    rw [fireDue_single_due s y.1 y.2.1 y.2.2 t hact hyt]
    exact ⟨by simp, by simp⟩

lemma wrapperBody_timerId {α : Type} (delay : Int) (s : DState α) (t : Int) (a : α) :
    (wrapperBody delay s t a).1.timerId = some s.nextId := by
  cases h : s.timerId <;> simp [wrapperBody, h]

lemma inv_wrapperBody {α : Type} (delay : Int) (s : DState α) (t : Int) (a : α)
    (h : Inv s) : Inv (wrapperBody delay s t a).1 := by
  rcases h with ⟨hlen, htid⟩
  have hact1 : (wrapperBody delay s t a).1.active = [(s.nextId, t + delay, a)] := by
    rw [wrapperBody_active]
    cases htd : s.timerId with
    | none =>
      have hact : s.active = [] := by
        cases hs : s.active with
        | nil => rfl
        | cons y ys =>
          have hcontra := htid y (by rw [hs]; simp)
          rw [htd] at hcontra
          cases hcontra
      rw [hact]
      rfl
    | some id =>
      have hfil : s.active.filter (fun x => decide (x.1 ≠ id)) = [] := by
        refine List.filter_eq_nil_iff.mpr ?_
        intro x hx
        have hx1 := htid x hx
        rw [htd] at hx1
        simp [Option.some.inj hx1]
      show s.active.filter (fun x => decide (x.1 ≠ id)) ++ [(s.nextId, t + delay, a)] = _
      rw [hfil]
      rfl
  constructor
  · rw [hact1]
    simp
  · intro x hx
    rw [hact1] at hx
    rw [wrapperBody_timerId, List.mem_singleton.mp hx]

lemma inv_callStep {α : Type} (delay : Int) (s : DState α) (t : Int) (a : α)
    (h : Inv s) : Inv (callStep delay s t a) :=
  inv_wrapperBody delay (fireDue s t) t a (inv_fireDue s t h)

lemma inv_initState {α : Type} : Inv (initState : DState α) :=
  ⟨by simp [initState], by simp [initState]⟩

lemma inv_runFrom {α : Type} (delay : Int) (calls : List (Int × α)) :
    ∀ s : DState α, Inv s → Inv (runFrom delay s calls) := by
  induction calls with
  | nil => intro s h; exact h
  | cons c rest ih =>
    intro s h
    exact ih (callStep delay s c.1 c.2) (inv_callStep delay s c.1 c.2 h)

/-- C2: in every reachable state of a limiter instance, at most one
scheduled-but-not-yet-fired timer exists, and both a further wrapper call
and a further firing preserve this. -/
theorem at_most_one_pending_timer {α : Type} (delay : Int)
    (calls : List (Int × α)) :
    (runCalls delay calls).active.length ≤ 1 ∧
    (∀ t a, (callStep delay (runCalls delay calls) t a).active.length ≤ 1) ∧
    (∀ t, (fireDue (runCalls delay calls) t).active.length ≤ 1) := by
  have h : Inv (runCalls delay calls) := inv_runFrom delay calls initState inv_initState
  exact ⟨h.1, fun t a => (inv_callStep delay _ t a h).1, fun t => (inv_fireDue _ t h).1⟩

/-- C2 witness: after two concrete calls, exactly one timer is pending. -/
theorem at_most_one_pending_timer_witness :
    (runCalls 100 [((0 : Int), 'a'), (30, 'b')]).active.length ≤ 1 :=
  (at_most_one_pending_timer 100 [((0 : Int), 'a'), (30, 'b')]).1

lemma getLastD_map_eq_getLast {β γ : Type} (f : β → γ) :
    ∀ (l : List β) (x : β),
      (l.map f).getLastD (f x) = f ((x :: l).getLast (List.cons_ne_nil x l))
  | [], _ => rfl
  | y :: l, x => by
    rw [List.map_cons, List.getLastD_cons, getLastD_map_eq_getLast f l y,
      List.getLast_cons (List.cons_ne_nil y l)]

/-- Running a burst from a state with one pending, not-yet-due timer: each
call lands strictly before the pending fire time, cancels it, and
reschedules; the eventual fires are the old log plus a single fire — the
pending timer if the burst is empty, otherwise the last call's timer. -/
lemma runFrom_burst {α : Type} (delay : Int) :
    ∀ (calls : List (Int × α)) (s : DState α) (id : Nat) (ft : Int) (b : α),
      s.active = [(id, ft, b)] → s.timerId = some id →
      (∀ p ∈ calls.head?, p.1 < ft) →
      List.Chain' (fun p q => q.1 < p.1 + delay) calls →
      (runFrom delay s calls).fired ++
          (runFrom delay s calls).active.map (fun x => (x.2.1, x.2.2)) =
        s.fired ++ [(calls.map (fun c => (c.1 + delay, c.2))).getLastD (ft, b)]
  | [], s, id, ft, b, hact, htid, hhead, hchain => by
    show s.fired ++ s.active.map _ = _
    rw [hact]
    rfl
  | (t, a) :: rest, s, id, ft, b, hact, htid, hhead, hchain => by
    have hlt : t < ft := hhead (t, a) rfl
    have hstep := callStep_not_due delay s id ft b t a hact htid hlt
    have hchain2 := List.chain'_cons'.mp hchain
    show (runFrom delay (callStep delay s t a) rest).fired ++
        (runFrom delay (callStep delay s t a) rest).active.map (fun x => (x.2.1, x.2.2)) = _
    rw [hstep, runFrom_burst delay rest
      ⟨[(s.nextId, t + delay, a)], s.nextId + 1, some s.nextId, s.fired⟩
      s.nextId (t + delay) a rfl rfl (fun p hp => hchain2.1 p hp) hchain2.2]
    rw [List.map_cons, List.getLastD_cons]

/-- C1: a nonempty burst — every call strictly within `delay` of the
previous one — makes the wrapped action fire exactly once, with the
arguments of the last call, at exactly (time of last call) + `delay`. -/
theorem burst_fires_once_with_last_args {α : Type} (delay : Int)
    (calls : List (Int × α)) (hne : calls ≠ [])
    (hburst : List.Chain' (fun p q => q.1 < p.1 + delay) calls) :
    allFires delay calls =
      [((calls.getLast hne).1 + delay, (calls.getLast hne).2)] := by
  cases calls with
  | nil => exact absurd rfl hne
  | cons c rest =>
    obtain ⟨t, a⟩ := c
    have hchain2 := List.chain'_cons'.mp hburst
    have hstep : callStep delay initState t a = ⟨[(0, t + delay, a)], 1, some 0, []⟩ :=
      callStep_of_empty delay initState t a rfl
    unfold allFires runCalls
    show (runFrom delay (callStep delay initState t a) rest).fired ++
        (runFrom delay (callStep delay initState t a) rest).active.map
          (fun x => (x.2.1, x.2.2)) = _
    rw [hstep, runFrom_burst delay rest ⟨[(0, t + delay, a)], 1, some 0, []⟩
      0 (t + delay) a rfl rfl (fun p hp => hchain2.1 p hp) hchain2.2]
    exact congrArg (fun z => [z])
      (getLastD_map_eq_getLast (fun c => (c.1 + delay, c.2)) rest (t, a))

/-- C1 witness: delay 100, calls at 0, 30, 60 with arguments a, b, c —
the action fires once, at 160, with argument c. -/
theorem burst_fires_once_with_last_args_witness :
    allFires 100 [((0 : Int), 'a'), (30, 'b'), (60, 'c')] = [(160, 'c')] := by
  have h := burst_fires_once_with_last_args 100
    [((0 : Int), 'a'), (30, 'b'), (60, 'c')] (by decide)
    (by norm_num [List.chain'_cons])
  rw [h]
  decide

/-- Running a spaced-out schedule from a state with one pending timer due
no later than the first call: every pending timer fires before the next
call arrives, so each call logs the previous fire and schedules its own. -/
lemma runFrom_spaced {α : Type} (delay : Int) :
    ∀ (calls : List (Int × α)) (s : DState α) (id : Nat) (ft : Int) (b : α),
      s.active = [(id, ft, b)] → s.timerId = some id →
      (∀ p ∈ calls.head?, ft ≤ p.1) →
      List.Chain' (fun p q => p.1 + delay < q.1) calls →
      (runFrom delay s calls).fired ++
          (runFrom delay s calls).active.map (fun x => (x.2.1, x.2.2)) =
        s.fired ++ (ft, b) :: calls.map (fun c => (c.1 + delay, c.2))
  | [], s, id, ft, b, hact, htid, hhead, hchain => by
    show s.fired ++ s.active.map _ = _
    rw [hact]
    rfl
  | (t, a) :: rest, s, id, ft, b, hact, htid, hhead, hchain => by
    have hle : ft ≤ t := hhead (t, a) rfl
    have hstep := callStep_due delay s id ft b t a hact hle
    have hchain2 := List.chain'_cons'.mp hchain
    show (runFrom delay (callStep delay s t a) rest).fired ++
        (runFrom delay (callStep delay s t a) rest).active.map (fun x => (x.2.1, x.2.2)) = _
    rw [hstep, runFrom_spaced delay rest
      ⟨[(s.nextId, t + delay, a)], s.nextId + 1, some s.nextId, s.fired ++ [(ft, b)]⟩
      s.nextId (t + delay) a rfl rfl
      (fun p hp => le_of_lt (hchain2.1 p hp)) hchain2.2]
    rw [List.append_assoc]
    rfl

/-- C5: when consecutive calls are spaced more than `delay` apart, the
action fires exactly once per call, each fire at that call's time plus
`delay` and with that call's arguments. -/
theorem spaced_fires_once_per_call {α : Type} (delay : Int)
    (calls : List (Int × α))
    (hsp : List.Chain' (fun p q => p.1 + delay < q.1) calls) :
    allFires delay calls = calls.map (fun c => (c.1 + delay, c.2)) := by
  cases calls with
  | nil => rfl
  | cons c rest =>
    obtain ⟨t, a⟩ := c
    have hchain2 := List.chain'_cons'.mp hsp
    have hstep : callStep delay initState t a = ⟨[(0, t + delay, a)], 1, some 0, []⟩ :=
      callStep_of_empty delay initState t a rfl
    unfold allFires runCalls
    show (runFrom delay (callStep delay initState t a) rest).fired ++
        (runFrom delay (callStep delay initState t a) rest).active.map
          (fun x => (x.2.1, x.2.2)) = _
    rw [hstep, runFrom_spaced delay rest ⟨[(0, t + delay, a)], 1, some 0, []⟩
      0 (t + delay) a rfl rfl
      (fun p hp => le_of_lt (hchain2.1 p hp)) hchain2.2]
    rfl

/-- C5 witness: delay 100, calls at 0 and 150 — the action fires twice, at
100 with the first argument and at 250 with the second. -/
theorem spaced_fires_once_per_call_witness :
    allFires 100 [((0 : Int), 'a'), (150, 'b')] = [(100, 'a'), (250, 'b')] := by
  have h := spaced_fires_once_per_call 100 [((0 : Int), 'a'), (150, 'b')]
    (by norm_num [List.chain'_cons])
  rw [h]
  decide

/-- The timer callback of the source, `() => { func(...args); timerId = null; }`,
with the wrapped action modelled as fallible: the action runs first; only
when it returns normally is `timerId` nulled; an error short-circuits and
leaves the callback with that same error. -/
def timerCallback {α ε : Type} (func : α → Except ε Unit) (a : α) :
    Except ε (Option Nat) :=
  match func a with
  | Except.error e => Except.error e
  | Except.ok _ => Except.ok none

/-- C7: the timer callback applies the wrapped action directly; an error
the action raises propagates out of the callback unchanged — nothing
catches or transforms it. -/
theorem action_error_propagates {α ε : Type} (func : α → Except ε Unit)
    (a : α) (e : ε) (h : func a = Except.error e) :
    timerCallback func a = Except.error e := by
  simp [timerCallback, h]

/-- C7 witness: an action that fails with error 7 makes the callback fail
with error 7. -/
theorem action_error_propagates_witness :
    timerCallback (fun _ : Nat => (Except.error 7 : Except Nat Unit)) 0 =
      Except.error 7 :=
  action_error_propagates (fun _ : Nat => Except.error 7) 0 7 rfl

end DebounceModel

namespace Katas

/-- Loop of `firstDupElem`: scan the remaining characters with the set
`keymaps` of characters already seen and the current index `i`; on the first
character already in the set return `i`, otherwise add it and continue;
return -1 when the string is exhausted. -/
def firstDupElemAux : List Char → List Char → Nat → Int
  | _, [], _ => -1
  | keymaps, c :: rest, i =>
    if c ∈ keymaps then (i : Int) else firstDupElemAux (c :: keymaps) rest (i + 1)

/-- Loop of `uniqChars`: walk the characters keeping the set `uniq` of seen
characters; return false on the first repeat, true if none. -/
def uniqCharsAux : List Char → List Char → Bool
  | _, [] => true
  | uniq, c :: rest => if c ∈ uniq then false else uniqCharsAux (c :: uniq) rest

/-- `uniqChars` from the utility module: whether all characters of the
string are distinct. `for (let s of str)` iterates Unicode code points,
which is what `String.data` yields. -/
def uniqChars (s : String) : Bool := uniqCharsAux [] s.data

/-- The UTF-16 code units of a string: a JavaScript string is a sequence
of UTF-16 code units, so `inputStr[i]` and `inputStr.length` see each code
point below 0x10000 as itself and every other code point as a surrogate
pair (high `0xD800 + (cp - 0x10000) / 0x400`, low
`0xDC00 + (cp - 0x10000) % 0x400`). -/
def utf16Units : List Char → List Nat
  | [] => []
  | c :: rest =>
    if c.toNat < 0x10000 then c.toNat :: utf16Units rest
    else (0xD800 + (c.toNat - 0x10000) / 0x400) ::
      (0xDC00 + (c.toNat - 0x10000) % 0x400) :: utf16Units rest

/-- Loop of `firstDupElem` at the level the source runs on: `inputStr[i]`
indexes UTF-16 code units, so the seen-set holds code units. -/
def firstDupUnitsAux : List Nat → List Nat → Nat → Int
  | _, [], _ => -1
  | keymaps, u :: rest, i =>
    if u ∈ keymaps then (i : Int) else firstDupUnitsAux (u :: keymaps) rest (i + 1)

/-- `firstDupElem` as it actually executes on a JS string: the same loop,
but scanning the UTF-16 code units that bracket indexing exposes. -/
def firstDupElemUtf16 (s : String) : Int :=
  firstDupUnitsAux [] (utf16Units s.data) 0

/-- Index `k` is a duplicate position of `l`: it is in range and repeats an
earlier character. -/
def DupAt (l : List Char) (k : Nat) : Prop :=
  k < l.length ∧ ∃ j, j < k ∧ l.get? j = l.get? k

/-- Generalized duplicate position for the loop: index `k` of `l` either
repeats a character of the already-seen set or repeats an earlier index. -/
def BadAt (seen : List Char) (l : List Char) (k : Nat) : Prop :=
  k < l.length ∧
    ((∃ c, l.get? k = some c ∧ c ∈ seen) ∨ ∃ j, j < k ∧ l.get? j = l.get? k)

instance dupAtDecidable (l : List Char) (k : Nat) : Decidable (DupAt l k) :=
  decidable_of_iff (k < l.length ∧ ∃ j ∈ List.range k, l.get? j = l.get? k)
    (by unfold DupAt; simp [List.mem_range])

lemma badAt_zero (seen : List Char) (c : Char) (rest : List Char) :
    BadAt seen (c :: rest) 0 ↔ c ∈ seen := by
  unfold BadAt
  simp

lemma badAt_succ (seen : List Char) (c : Char) (rest : List Char) (k : Nat) :
    BadAt seen (c :: rest) (k + 1) ↔ BadAt (c :: seen) rest k := by
  unfold BadAt
  rw [List.get?_cons_succ]
  constructor
  · rintro ⟨hk, h⟩
    refine ⟨by simp only [List.length_cons] at hk; omega, ?_⟩
    rcases h with ⟨d, hd, hds⟩ | ⟨j, hj, heq⟩
    · exact Or.inl ⟨d, hd, List.mem_cons_of_mem c hds⟩
    · cases j with
      | zero =>
        rw [List.get?_cons_zero] at heq
        exact Or.inl ⟨c, heq.symm, List.mem_cons_self c seen⟩
      | succ j =>
        rw [List.get?_cons_succ] at heq
        exact Or.inr ⟨j, by omega, heq⟩
  · rintro ⟨hk, h⟩
    refine ⟨by simp only [List.length_cons]; omega, ?_⟩
    rcases h with ⟨d, hd, hds⟩ | ⟨j, hj, heq⟩
    · rcases List.mem_cons.mp hds with rfl | hds2
      · exact Or.inr ⟨0, by omega, by rw [List.get?_cons_zero, hd]⟩
      · exact Or.inl ⟨d, hd, hds2⟩
    · exact Or.inr ⟨j + 1, by omega, by rw [List.get?_cons_succ]; exact heq⟩

lemma firstDupElemAux_eq_neg : ∀ (l seen : List Char) (i : Nat),
    (∀ k, ¬ BadAt seen l k) → firstDupElemAux seen l i = -1
  | [], _, _, _ => rfl
  | c :: rest, seen, i, h => by
    have hc : c ∉ seen := fun hmem => h 0 ((badAt_zero seen c rest).mpr hmem)
    show (if c ∈ seen then (i : Int) else firstDupElemAux (c :: seen) rest (i + 1)) = -1
    rw [if_neg hc]
    exact firstDupElemAux_eq_neg rest (c :: seen) (i + 1)
      (fun k hk => h (k + 1) ((badAt_succ seen c rest k).mpr hk))

lemma uniqCharsAux_true_iff : ∀ (l seen : List Char),
    uniqCharsAux seen l = true ↔ (l.Nodup ∧ ∀ c ∈ l, c ∉ seen)
  | [], seen => by simp [uniqCharsAux]
  | c :: rest, seen => by
    by_cases hc : c ∈ seen
    · show (if c ∈ seen then false else uniqCharsAux (c :: seen) rest) = true ↔ _
      rw [if_pos hc]
      constructor
      · intro h
        simp at h
      · rintro ⟨_, hall⟩
        exact absurd hc (hall c (List.mem_cons_self c rest))
    · show (if c ∈ seen then false else uniqCharsAux (c :: seen) rest) = true ↔ _
      rw [if_neg hc, uniqCharsAux_true_iff rest (c :: seen)]
      constructor
      · rintro ⟨hnd, hall⟩
        refine ⟨List.nodup_cons.mpr ⟨fun hcr => ?_, hnd⟩, ?_⟩
        · exact (hall c hcr) (List.mem_cons_self c seen)
        · intro d hd
          rcases List.mem_cons.mp hd with rfl | hd2
          · exact hc
          · exact fun hds => (hall d hd2) (List.mem_cons_of_mem c hds)
      · rintro ⟨hnd, hall⟩
        have hnd2 := List.nodup_cons.mp hnd
        refine ⟨hnd2.2, ?_⟩
        intro d hd hds
        rcases List.mem_cons.mp hds with rfl | hds2
        · exact hnd2.1 hd
        · exact (hall d (List.mem_cons_of_mem c hd)) hds2

lemma char_toNat_injective : Function.Injective Char.toNat := by
  intro a b h
  rw [← Char.ofNat_toNat a, ← Char.ofNat_toNat b, h]

/-- On a string of Basic-Multilingual-Plane characters, each character is
its own single UTF-16 code unit. -/
lemma utf16Units_of_bmp : ∀ l : List Char,
    (∀ c ∈ l, c.toNat < 0x10000) → utf16Units l = l.map Char.toNat
  | [], _ => rfl
  | c :: rest, h => by
    have hc : c.toNat < 0x10000 := h c (List.mem_cons_self c rest)
    show (if c.toNat < 0x10000 then c.toNat :: utf16Units rest
      else (0xD800 + (c.toNat - 0x10000) / 0x400) ::
        (0xDC00 + (c.toNat - 0x10000) % 0x400) :: utf16Units rest) = _
    rw [if_pos hc,
      utf16Units_of_bmp rest (fun d hd => h d (List.mem_cons_of_mem c hd))]
    rfl

lemma firstDupUnitsAux_eq_neg_iff : ∀ (l seen : List Nat) (i : Nat),
    firstDupUnitsAux seen l i = -1 ↔ (l.Nodup ∧ ∀ u ∈ l, u ∉ seen)
  | [], seen, i => by simp [firstDupUnitsAux]
  | u :: rest, seen, i => by
    by_cases hu : u ∈ seen
    · show (if u ∈ seen then (i : Int) else firstDupUnitsAux (u :: seen) rest (i + 1)) =
        -1 ↔ _
      rw [if_pos hu]
      constructor
      · intro h
        exact absurd h (by omega)
      · rintro ⟨_, hall⟩
        exact absurd hu (hall u (List.mem_cons_self u rest))
    · show (if u ∈ seen then (i : Int) else firstDupUnitsAux (u :: seen) rest (i + 1)) =
        -1 ↔ _
      rw [if_neg hu, firstDupUnitsAux_eq_neg_iff rest (u :: seen) (i + 1)]
      constructor
      · rintro ⟨hnd, hall⟩
        refine ⟨List.nodup_cons.mpr ⟨fun hur => ?_, hnd⟩, ?_⟩
        · exact (hall u hur) (List.mem_cons_self u seen)
        · intro v hv
          rcases List.mem_cons.mp hv with rfl | hv2
          · exact hu
          · exact fun hvs => (hall v hv2) (List.mem_cons_of_mem u hvs)
      · rintro ⟨hnd, hall⟩
        have hnd2 := List.nodup_cons.mp hnd
        refine ⟨hnd2.2, ?_⟩
        intro v hv hvs
        rcases List.mem_cons.mp hvs with rfl | hvs2
        · exact hnd2.1 hv
        · exact (hall v (List.mem_cons_of_mem u hv)) hvs2

/-- C10 counterexample: the claimed equivalence fails on the program. In
the two-emoji string each code point is a surrogate pair of code units:
`uniqChars` iterates the two distinct code points and returns true, while
`firstDupElem` meets the high surrogate 0xD83D again at unit index 2 and
returns 2, not -1. -/
theorem uniqChars_firstDupElem_disagree :
    uniqChars "😀😁" = true ∧ firstDupElemUtf16 "😀😁" = 2 ∧
    ¬ (uniqChars "😀😁" = true ↔ firstDupElemUtf16 "😀😁" = -1) := by
  decide

/-- C10 (amended): on strings whose characters all lie in the Basic
Multilingual Plane — one UTF-16 code unit per character, so both loops
scan the same sequence — `uniqChars` returns true exactly when
`firstDupElem` returns -1, and false exactly when some character of the
string occurs more than once. -/
theorem uniqChars_agrees_with_firstDupElem_on_bmp (s : String)
    (hbmp : ∀ c ∈ s.data, c.toNat < 0x10000) :
    (uniqChars s = true ↔ firstDupElemUtf16 s = -1) ∧
    (uniqChars s = false ↔ ¬ s.data.Nodup) := by
  have h1 : uniqChars s = true ↔ s.data.Nodup := by
    show uniqCharsAux [] s.data = true ↔ s.data.Nodup
    rw [uniqCharsAux_true_iff s.data []]
    simp
  have h2 : firstDupElemUtf16 s = -1 ↔ s.data.Nodup := by
    show firstDupUnitsAux [] (utf16Units s.data) 0 = -1 ↔ s.data.Nodup
    rw [firstDupUnitsAux_eq_neg_iff (utf16Units s.data) [] 0,
      utf16Units_of_bmp s.data hbmp]
    simp [List.nodup_map_iff char_toNat_injective]
  constructor
  · exact h1.trans h2.symm
  · constructor
    · intro hf hnd
      have ht : uniqChars s = true := h1.mpr hnd
      rw [hf] at ht
      simp at ht
    · intro hnnd
      cases hu : uniqChars s with
      | false => rfl
      | true => exact absurd (h1.mp hu) hnnd

/-- C10 witness: the amended equivalence instantiated at the all-BMP
string "hello". -/
theorem uniqChars_agrees_with_firstDupElem_on_bmp_witness :
    uniqChars "hello" = true ↔ firstDupElemUtf16 "hello" = -1 :=
  (uniqChars_agrees_with_firstDupElem_on_bmp "hello" (by decide)).1

end Katas
